import Mathlib

/-!
Verification of the natural-language specification of
Opm::UniformXTabulated2DFunction (a bilinear interpolation table that is
uniformly indexed on the x-axis and irregularly sampled on the y-axis)
against a shallow embedding of its C++ source.  The scalar type of the
table is embedded as the rationals, so that every arithmetic identity of
the source holds exactly.
-/

set_option maxHeartbeats 1000000

namespace Opm

/-- A sample point of the table: the C++ tuple (x, y, value). -/
structure SamplePoint where
  x : ℚ
  y : ℚ
  value : ℚ
deriving DecidableEq, Repr, Inhabited

/-- The state of a UniformXTabulated2DFunction: the jagged sample matrix
of the member samples_ and the parallel list of column abscissas xPos_. -/
structure UniformXTabulated2DFunction where
  samples : List (List SamplePoint)
  xPos : List ℚ
deriving DecidableEq, Repr, Inhabited

/-- Error conditions of the table: ConstructionError is the
std::invalid_argument thrown by the append operations, NumericalIssue the
domain-violation condition raised by checked evaluation. -/
inductive TableError where
  | constructionError
  | numericalIssue
deriving DecidableEq, Repr

abbrev Table := UniformXTabulated2DFunction

/-- Truncation of a rational toward zero, the semantics of the C++
static_cast from a floating-point scalar to int. -/
def cppTrunc (q : ℚ) : ℤ :=
  Int.tdiv q.num (q.den : ℤ)

namespace UniformXTabulated2DFunction

/-- xMin: the front of xPos_. -/
def xMin (f : Table) : ℚ := f.xPos.headD 0

/-- xMax: the back of xPos_. -/
def xMax (f : Table) : ℚ := f.xPos.getLastD 0

/-- xAt(i): xPos_[i]. -/
def xAt (f : Table) (i : ℕ) : ℚ := f.xPos.getD i 0

/-- yAt(i,j): the y coordinate of samples_[i][j]. -/
def yAt (f : Table) (i j : ℕ) : ℚ := ((f.samples.getD i []).getD j default).y

/-- valueAt(i,j): the value of samples_[i][j]. -/
def valueAt (f : Table) (i j : ℕ) : ℚ := ((f.samples.getD i []).getD j default).value

/-- numX: the number of columns. -/
def numX (f : Table) : ℕ := f.xPos.length

/-- yMin(i): the y coordinate of the front sample of column i. -/
def yMin (f : Table) (i : ℕ) : ℚ := ((f.samples.getD i []).headD default).y

/-- yMax(i): the y coordinate of the back sample of column i. -/
def yMax (f : Table) (i : ℕ) : ℚ := ((f.samples.getD i []).getLastD default).y

/-- numY(i): the number of samples of column i. -/
def numY (f : Table) (i : ℕ) : ℕ := (f.samples.getD i []).length

/-- iToX(i): xPos_.at(i). -/
def iToX (f : Table) (i : ℕ) : ℚ := f.xPos.getD i 0

/-- One fuelled unfolding of the interval-halving loop shared by xToI
(its bisection loop over xPos_) and yToJ (its loop over a column's y
coordinates): while lowerIdx + 1 < upperIdx, the pivot
(lowerIdx + upperIdx) / 2 replaces upperIdx when the coordinate is below
the pivot sample and replaces lowerIdx otherwise; the final lowerIdx is
returned.  The structural fuel argument only serves termination: the gap
upperIdx - lowerIdx shrinks on every iteration, so any fuel of at least
that gap runs the loop to completion. -/
def bisectAux (pos : List ℚ) (x : ℚ) : ℕ → ℕ → ℕ → ℕ
  | 0, lowerIdx, _ => lowerIdx
  | fuel + 1, lowerIdx, upperIdx =>
    if lowerIdx + 1 < upperIdx then
      if x < pos.getD ((lowerIdx + upperIdx) / 2) 0 then
        bisectAux pos x fuel lowerIdx ((lowerIdx + upperIdx) / 2)
      else
        bisectAux pos x fuel ((lowerIdx + upperIdx) / 2) upperIdx
    else
      lowerIdx

/-- The interval-halving loop, run with enough fuel to terminate through
the loop condition alone. -/
def bisect (pos : List ℚ) (x : ℚ) (lowerIdx upperIdx : ℕ) : ℕ :=
  bisectAux pos x (upperIdx - lowerIdx) lowerIdx upperIdx

/-- xToI(x): the continuous interval position of x on the x-axis.  The
extrapolate argument of the C++ function only feeds an assertion and does
not influence the computed value, so it is omitted here. -/
def xToI (f : Table) (x : ℚ) : ℚ :=
  let n := f.xPos.length
  let segmentIdx : ℕ :=
    if x ≤ f.xPos.getD 1 0 then 0
    else if f.xPos.getD (n - 2) 0 ≤ x then n - 2
    else bisect f.xPos x 1 (n - 2)
  let x1 := f.xPos.getD segmentIdx 0
  let x2 := f.xPos.getD (segmentIdx + 1) 0
  (segmentIdx : ℚ) + (x - x1) / (x2 - x1)

/-- yToJ(i,y): the continuous interval position of y within column i.
The extrapolate argument of the C++ function only feeds assertions and
does not influence the computed value, so it is omitted here. -/
def yToJ (f : Table) (i : ℕ) (y : ℚ) : ℚ :=
  let colSamplePoints := f.samples.getD i []
  let ys := colSamplePoints.map SamplePoint.y
  let lowerIdx := bisect ys y 0 (colSamplePoints.length - 1)
  let y1 := ys.getD lowerIdx 0
  let y2 := ys.getD (lowerIdx + 1) 0
  (lowerIdx : ℚ) + (y - y1) / (y2 - y1)

/-- applies(x,y): the domain-membership test.  Note that the source reads
both col1SamplePoints and col2SamplePoints from the same column int(i),
which the embedding reproduces verbatim. -/
def applies (f : Table) (x y : ℚ) : Bool :=
  if x < xMin f ∨ xMax f < x then false
  else
    let i := xToI f x
    let col1SamplePoints := f.samples.getD (cppTrunc i).toNat []
    let col2SamplePoints := f.samples.getD (cppTrunc i).toNat []
    let alpha := i - ((cppTrunc i : ℤ) : ℚ)
    let yn := alpha * (col1SamplePoints.headD default).y
      + (1 - alpha) * (col2SamplePoints.headD default).y
    let yx := alpha * (col1SamplePoints.getLastD default).y
      + (1 - alpha) * (col2SamplePoints.getLastD default).y
    decide (yn ≤ y ∧ y ≤ yx)

/-- The arithmetic core of the scalar eval(x, y, extrapolate): clamp the
integer part of xToI to [0, numX-2], search both bracketing columns with
yToJ, clamp each integer part to the column's valid range, and blend the
four corner values bilinearly.  The extrapolate flag does not influence
this computation. -/
def evalValue (f : Table) (x y : ℚ) : ℚ :=
  let alphaRaw := xToI f x
  let i : ℕ := (max 0 (min ((numX f : ℤ) - 2) (cppTrunc alphaRaw))).toNat
  let alpha := alphaRaw - (i : ℚ)
  let beta1Raw := yToJ f i y
  let beta2Raw := yToJ f (i + 1) y
  let j1 : ℕ := (max 0 (min ((numY f i : ℤ) - 2) (cppTrunc beta1Raw))).toNat
  let j2 : ℕ := (max 0 (min ((numY f (i + 1) : ℤ) - 2) (cppTrunc beta2Raw))).toNat
  let beta1 := beta1Raw - (j1 : ℚ)
  let beta2 := beta2Raw - (j2 : ℚ)
  let s1 := valueAt f i j1 * (1 - beta1) + valueAt f i (j1 + 1) * beta1
  let s2 := valueAt f (i + 1) j2 * (1 - beta2) + valueAt f (i + 1) (j2 + 1) * beta2
  s1 * (1 - alpha) + s2 * alpha

/-- The scalar eval(x, y, extrapolate) in checked (debug) evaluation
mode: raise NumericalIssue when extrapolation is disabled and the point
fails the applies test, and return the interpolated value otherwise. -/
def eval (f : Table) (x y : ℚ) (extrapolate : Bool) : Except TableError ℚ :=
  if !extrapolate && !applies f x y then
    Except.error TableError.numericalIssue
  else
    Except.ok (evalValue f x y)

/-- The scalar eval called without an explicit extrapolate argument: the
C++ declaration defaults extrapolate to true. -/
def evalDefault (f : Table) (x y : ℚ) : Except TableError ℚ :=
  eval f x y true

end UniformXTabulated2DFunction

/-- Modelled from the spec: the derivative-carrying numeric type of the
derivative-propagating eval overload (the Evaluation template argument,
whose class is not part of the sources at hand): a scalar value together
with a fixed-length vector of partial derivatives with respect to a set
of independent variables. -/
structure Evaluation where
  value : ℚ
  derivatives : List ℚ
deriving DecidableEq, Repr, Inhabited

namespace Evaluation

/-- Modelled from the spec: forward-mode sum of two derivative-carrying
numbers. -/
def add (a b : Evaluation) : Evaluation :=
  ⟨a.value + b.value, List.zipWith (fun da db => da + db) a.derivatives b.derivatives⟩

/-- Modelled from the spec: forward-mode product of two
derivative-carrying numbers (product rule). -/
def mul (a b : Evaluation) : Evaluation :=
  ⟨a.value * b.value,
   List.zipWith (fun da db => da * b.value + a.value * db) a.derivatives b.derivatives⟩

/-- Modelled from the spec: a plain scalar multiplying a
derivative-carrying number from the left. -/
def smul (c : ℚ) (a : Evaluation) : Evaluation :=
  ⟨c * a.value, a.derivatives.map (fun d => c * d)⟩

/-- Modelled from the spec: a plain scalar minus a derivative-carrying
number, as in the subexpression 1.0 - beta of the source. -/
def scalarSub (c : ℚ) (a : Evaluation) : Evaluation :=
  ⟨c - a.value, a.derivatives.map (fun d => -d)⟩

end Evaluation

namespace UniformXTabulated2DFunction

/-- The derivative-propagating eval overload: the value components follow
the scalar eval; alpha, beta1 and beta2 receive the derivative vectors
assigned by the loop of the source (derivative of the input divided by
the width of the selected bracket), and the bilinear blend is evaluated
with the forward-mode arithmetic.  The loop of the source runs over the
derivative indices of x while reading those of y, which is faithful under
the equal-dimensionality precondition of the spec. -/
def evalAD (f : Table) (x y : Evaluation) : Evaluation :=
  let alphaRaw := xToI f x.value
  let i : ℕ := (max 0 (min ((numX f : ℤ) - 2) (cppTrunc alphaRaw))).toNat
  let beta1Raw := yToJ f i y.value
  let beta2Raw := yToJ f (i + 1) y.value
  let j1 : ℕ := (max 0 (min ((numY f i : ℤ) - 2) (cppTrunc beta1Raw))).toNat
  let j2 : ℕ := (max 0 (min ((numY f (i + 1) : ℤ) - 2) (cppTrunc beta2Raw))).toNat
  let alpha : Evaluation :=
    ⟨alphaRaw - (i : ℚ), x.derivatives.map (fun d => d / (xAt f (i + 1) - xAt f i))⟩
  let beta1 : Evaluation :=
    ⟨beta1Raw - (j1 : ℚ), y.derivatives.map (fun d => d / (yAt f i (j1 + 1) - yAt f i j1))⟩
  let beta2 : Evaluation :=
    ⟨beta2Raw - (j2 : ℚ),
     y.derivatives.map (fun d => d / (yAt f (i + 1) (j2 + 1) - yAt f (i + 1) j2))⟩
  let s1 := Evaluation.add (Evaluation.smul (valueAt f i j1) (Evaluation.scalarSub 1 beta1))
    (Evaluation.smul (valueAt f i (j1 + 1)) beta1)
  let s2 := Evaluation.add
    (Evaluation.smul (valueAt f (i + 1) j2) (Evaluation.scalarSub 1 beta2))
    (Evaluation.smul (valueAt f (i + 1) (j2 + 1)) beta2)
  Evaluation.add (Evaluation.mul s1 (Evaluation.scalarSub 1 alpha)) (Evaluation.mul s2 alpha)

/-- The derivative-propagating eval in checked (debug) evaluation mode:
raise NumericalIssue when extrapolation is disabled and the value
components fail the applies test. -/
def evalADChecked (f : Table) (x y : Evaluation) (extrapolate : Bool) :
    Except TableError Evaluation :=
  if !extrapolate && !applies f x.value y.value then
    Except.error TableError.numericalIssue
  else
    Except.ok (evalAD f x y)

/-- The derivative-propagating eval called without an explicit
extrapolate argument: the C++ declaration defaults extrapolate to
false. -/
def evalADDefault (f : Table) (x y : Evaluation) : Except TableError Evaluation :=
  evalADChecked f x y false

/-- std::vector::resize on the samples_ matrix: truncate or pad with
empty columns to the requested length. -/
def resizeSamples (s : List (List SamplePoint)) (n : ℕ) : List (List SamplePoint) :=
  s.take n ++ List.replicate (n - s.length) []

/-- appendXPos(nextX): append a fresh column behind the current back
when the x sequence is empty or strictly extended at the back, insert a
fresh column at the front when strictly extended at the front, and throw
otherwise. -/
def appendXPos (f : Table) (nextX : ℚ) : Except TableError (Table × ℕ) :=
  if f.xPos = [] ∨ f.xPos.getLastD 0 < nextX then
    let xPos2 := f.xPos ++ [nextX]
    Except.ok (⟨resizeSamples f.samples xPos2.length, xPos2⟩, xPos2.length - 1)
  else if nextX < f.xPos.headD 0 then
    Except.ok (⟨[] :: f.samples, nextX :: f.xPos⟩, 0)
  else
    Except.error TableError.constructionError

/-- appendSamplePoint(i, y, value): push the sample behind the back of
column i when the column is empty or strictly extended at the back,
insert it at the front when strictly extended at the front, and throw
otherwise. -/
def appendSamplePoint (f : Table) (i : ℕ) (y value : ℚ) : Except TableError (Table × ℕ) :=
  let x := iToX f i
  let col := f.samples.getD i []
  if col = [] ∨ (col.getLastD default).y < y then
    Except.ok (⟨f.samples.set i (col ++ [⟨x, y, value⟩]), f.xPos⟩, (col.length + 1) - 1)
  else if y < (col.headD default).y then
    Except.ok (⟨f.samples.set i (⟨x, y, value⟩ :: col), f.xPos⟩, 0)
  else
    Except.error TableError.constructionError

end UniformXTabulated2DFunction

open UniformXTabulated2DFunction

/-- Feed a list of x positions into appendXPos one after the other,
failing when any append fails. -/
def buildX (f : Table) : List ℚ → Option Table
  | [] => some f
  | a :: rest =>
    match appendXPos f a with
    | Except.ok (f2, _) => buildX f2 rest
    | Except.error _ => none

/-- Feed a list of (y, value) pairs into appendSamplePoint on column i
one after the other, failing when any append fails. -/
def buildY (f : Table) (i : ℕ) : List (ℚ × ℚ) → Option Table
  | [] => some f
  | p :: rest =>
    match appendSamplePoint f i p.1 p.2 with
    | Except.ok (f2, _) => buildY f2 i rest
    | Except.error _ => none

/-- The table with no columns. -/
def emptyTable : Table := ⟨[], []⟩

/-- The construction of the demonstration table of the spec: columns at
x = 0 and x = 1, column 0 sampled at y = 0, 1 with values 0, 1 and
column 1 sampled at y = 0, 1 with values 2, 3. -/
def demoTableOpt : Option Table :=
  (buildX emptyTable [0, 1]).bind fun t1 =>
    (buildY t1 0 [(0, 0), (1, 1)]).bind fun t2 =>
      buildY t2 1 [(0, 2), (1, 3)]

/-- The demonstration table itself. -/
def demoTable : Table := demoTableOpt.getD emptyTable

/-- Well-formedness invariant maintained by construction: the x
positions are strictly ascending and each column is strictly ascending
in y. -/
def WFsorted (f : Table) : Prop :=
  f.xPos.Pairwise (· < ·) ∧ ∀ col ∈ f.samples, (col.map SamplePoint.y).Pairwise (· < ·)

/-- A query-ready table: sorted, one sample column per x position, at
least two columns and at least two samples per column. -/
def QueryReady (f : Table) : Prop :=
  WFsorted f ∧ f.samples.length = f.xPos.length ∧ 2 ≤ f.xPos.length ∧
    ∀ col ∈ f.samples, 2 ≤ col.length

/-- Modelled from the spec: the chain-rule reference semantics of the
derivative-propagating eval.  The value is the scalar eval of the value
components; each derivative is the derivative of the bilinear blend with
dalpha = dx / (x[i+1] - x[i]), dbeta1 = dy / (y[i,j1+1] - y[i,j1]),
dbeta2 = dy / (y[i+1,j2+1] - y[i+1,j2]) and the four corner values held
constant. -/
def evalADRef (f : Table) (x y : Evaluation) : Evaluation :=
  let alphaRaw := xToI f x.value
  let i : ℕ := (max 0 (min ((numX f : ℤ) - 2) (cppTrunc alphaRaw))).toNat
  let alpha := alphaRaw - (i : ℚ)
  let beta1Raw := yToJ f i y.value
  let beta2Raw := yToJ f (i + 1) y.value
  let j1 : ℕ := (max 0 (min ((numY f i : ℤ) - 2) (cppTrunc beta1Raw))).toNat
  let j2 : ℕ := (max 0 (min ((numY f (i + 1) : ℤ) - 2) (cppTrunc beta2Raw))).toNat
  let beta1 := beta1Raw - (j1 : ℚ)
  let beta2 := beta2Raw - (j2 : ℚ)
  let s1 := valueAt f i j1 * (1 - beta1) + valueAt f i (j1 + 1) * beta1
  let s2 := valueAt f (i + 1) j2 * (1 - beta2) + valueAt f (i + 1) (j2 + 1) * beta2
  { value := evalValue f x.value y.value
    derivatives := List.zipWith (fun dx dy =>
      (valueAt f i (j1 + 1) - valueAt f i j1) * (dy / (yAt f i (j1 + 1) - yAt f i j1)) *
        (1 - alpha)
      + (valueAt f (i + 1) (j2 + 1) - valueAt f (i + 1) j2) *
          (dy / (yAt f (i + 1) (j2 + 1) - yAt f (i + 1) j2)) * alpha
      + (s2 - s1) * (dx / (xAt f (i + 1) - xAt f i))) x.derivatives y.derivatives }

/-- The table with columns at x = 0 (y from 0 to 1) and x = 1 (y from 10
to 11), used to separate the blended-bounds reading of applies from the
single-column behavior of the code. -/
def cexTableOpt : Option Table :=
  (buildX emptyTable [0, 1]).bind fun t1 =>
    (buildY t1 0 [(0, 0), (1, 0)]).bind fun t2 =>
      buildY t2 1 [(10, 0), (11, 0)]

def cexTable : Table := cexTableOpt.getD emptyTable

theorem bisectAux_lb (pos : List ℚ) (x : ℚ) :
    ∀ fuel l u : ℕ, l ≤ bisectAux pos x fuel l u := by
  intro fuel
  induction fuel with
  | zero => intro l u; simp [bisectAux]
  | succ n ih =>
    intro l u
    rw [bisectAux]
    split
    · split
      · exact ih l _
      · exact le_trans (by omega) (ih _ u)
    · exact le_refl l

theorem bisectAux_ub (pos : List ℚ) (x : ℚ) :
    ∀ fuel l u : ℕ, l < u → bisectAux pos x fuel l u < u := by
  intro fuel
  induction fuel with
  | zero => intro l u h; simpa [bisectAux]
  | succ n ih =>
    intro l u h
    rw [bisectAux]
    split
    · rename_i hlt
      split
      · exact lt_trans (ih l _ (by omega)) (by omega)
      · exact ih _ u (by omega)
    · exact h

theorem bisectAux_bracket (pos : List ℚ) (x : ℚ) :
    ∀ fuel l u : ℕ, u - l ≤ fuel → l < u → pos.getD l 0 ≤ x → x ≤ pos.getD u 0 →
      pos.getD (bisectAux pos x fuel l u) 0 ≤ x ∧
        x ≤ pos.getD (bisectAux pos x fuel l u + 1) 0 := by
  intro fuel
  induction fuel with
  | zero => intro l u hf h; omega
  | succ n ih =>
    intro l u hf h hl hu
    rw [bisectAux]
    split
    · rename_i hlt
      split
      · rename_i hx
        exact ih l _ (by omega) (by omega) hl (le_of_lt hx)
      · rename_i hx
        exact ih _ u (by omega) (by omega) (le_of_not_lt hx) hu
    · rename_i hlt
      have huv : u = l + 1 := by omega
      exact ⟨hl, by rw [← huv]; exact hu⟩

theorem bisect_lb (pos : List ℚ) (x : ℚ) (l u : ℕ) : l ≤ bisect pos x l u :=
  bisectAux_lb pos x _ l u

theorem bisect_ub (pos : List ℚ) (x : ℚ) (l u : ℕ) (h : l < u) : bisect pos x l u < u :=
  bisectAux_ub pos x _ l u h

theorem bisect_bracket (pos : List ℚ) (x : ℚ) (l u : ℕ) (h : l < u)
    (hl : pos.getD l 0 ≤ x) (hu : x ≤ pos.getD u 0) :
    pos.getD (bisect pos x l u) 0 ≤ x ∧ x ≤ pos.getD (bisect pos x l u + 1) 0 :=
  bisectAux_bracket pos x _ l u (le_refl _) h hl hu

theorem headD_eq_getD {α : Type} (l : List α) (d : α) : l.headD d = l.getD 0 d := by
  cases l <;> rfl

theorem getLastD_eq_getD {α : Type} (l : List α) (d : α) (h : l ≠ []) :
    l.getLastD d = l.getD (l.length - 1) d := by
  have hlen : l.length - 1 < l.length := by
    have := List.length_pos.mpr h
    omega
  rw [List.getD_eq_getElem _ _ hlen, List.getLastD_eq_getLast?, List.getLast?_eq_getElem?,
    List.getElem?_eq_getElem hlen]
  rfl

theorem pairwise_getD_lt {l : List ℚ} (h : l.Pairwise (· < ·)) {a b : ℕ} (hab : a < b)
    (hb : b < l.length) : l.getD a 0 < l.getD b 0 := by
  rw [List.getD_eq_getElem _ _ (lt_trans hab hb), List.getD_eq_getElem _ _ hb]
  exact List.pairwise_iff_getElem.mp h a b _ _ hab

theorem pairwise_getD_le {l : List ℚ} (h : l.Pairwise (· < ·)) {a b : ℕ} (hab : a ≤ b)
    (hb : b < l.length) : l.getD a 0 ≤ l.getD b 0 := by
  rcases Nat.eq_or_lt_of_le hab with h1 | h1
  · rw [h1]
  · exact le_of_lt (pairwise_getD_lt h h1 hb)

theorem yToJ_node (f : Table) (i j : ℕ)
    (hs : ((f.samples.getD i []).map SamplePoint.y).Pairwise (· < ·))
    (hm : 2 ≤ (f.samples.getD i []).length)
    (hj : j < (f.samples.getD i []).length) :
    yToJ f i (yAt f i j) = (j : ℚ) := by
  have hyat : yAt f i j = ((f.samples.getD i []).map SamplePoint.y).getD j 0 := by
    rw [yAt, show (0 : ℚ) = SamplePoint.y default from rfl, List.getD_map]
  set col := f.samples.getD i [] with hcol
  set ys := col.map SamplePoint.y with hys
  have hlen : ys.length = col.length := List.length_map col SamplePoint.y
  set y := yAt f i j with hy
  set l := bisect ys y 0 (col.length - 1) with hl
  have hub : l < col.length - 1 + 1 := by
    have := bisect_ub ys y 0 (col.length - 1) (by omega)
    omega
  have hbr := bisect_bracket ys y 0 (col.length - 1) (by omega)
    (by rw [hyat]; exact pairwise_getD_le hs (by omega) (by omega))
    (by rw [hyat]; exact pairwise_getD_le hs (by omega) (by omega))
  rw [← hl] at hbr
  have hlb : l ≤ j := by
    by_contra hc
    push_neg at hc
    have := pairwise_getD_lt hs hc (by omega)
    rw [← hyat] at this
    exact absurd hbr.1 (not_le.mpr this)
  have hub2 : j ≤ l + 1 := by
    by_contra hc
    push_neg at hc
    have := pairwise_getD_lt hs hc (by omega)
    rw [← hyat] at this
    exact absurd hbr.2 (not_le.mpr this)
  rw [yToJ]
  simp only [← hcol, ← hys, ← hl]
  rcases Nat.eq_or_lt_of_le hlb with h1 | h1
  · rw [← h1] at hyat ⊢
    rw [hyat]
    simp
  · have hjl : j = l + 1 := by omega
    rw [hjl] at hyat ⊢
    rw [hyat, div_self]
    · push_cast
      ring
    · have := pairwise_getD_lt hs (Nat.lt_succ_self l) (by omega)
      exact sub_ne_zero.mpr (ne_of_gt this)

theorem xToI_node (f : Table) (i : ℕ) (hs : f.xPos.Pairwise (· < ·))
    (hn : 2 ≤ f.xPos.length) (hi : i < f.xPos.length) :
    xToI f (f.xPos.getD i 0) = (i : ℚ) := by
  set n := f.xPos.length with hnn
  set x := f.xPos.getD i 0 with hx
  rw [xToI]
  simp only [← hnn]
  by_cases h1 : x ≤ f.xPos.getD 1 0
  · rw [if_pos h1]
    have hile : i ≤ 1 := by
      by_contra hc
      push_neg at hc
      exact absurd h1 (not_le.mpr (pairwise_getD_lt hs hc hi))
    have : i = 0 ∨ i = 1 := by omega
    rcases this with h | h
    · subst h
      rw [hx]
      simp
    · subst h
      rw [div_self (sub_ne_zero.mpr (ne_of_gt (pairwise_getD_lt hs Nat.zero_lt_one hi)))]
      norm_num
  · rw [if_neg h1]
    push_neg at h1
    by_cases h2 : f.xPos.getD (n - 2) 0 ≤ x
    · rw [if_pos h2]
      have hige : n - 2 ≤ i := by
        by_contra hc
        push_neg at hc
        exact absurd h2 (not_le.mpr (pairwise_getD_lt hs hc (by omega)))
      have : i = n - 2 ∨ i = n - 1 := by omega
      rcases this with h | h
      · rw [hx, h]
        simp
      · have hni : n - 1 = (n - 2) + 1 := by omega
        rw [hx, h, hni,
          div_self (sub_ne_zero.mpr (ne_of_gt (pairwise_getD_lt hs (by omega) (by omega))))]
        push_cast
        ring
    · rw [if_neg h2]
      push_neg at h2
      have hn4 : 1 < n - 2 := by
        by_contra hc
        push_neg at hc
        exact absurd (lt_trans h1 h2) (not_lt.mpr (pairwise_getD_le hs hc (by omega)))
      set s := bisect f.xPos x 1 (n - 2) with hsdef
      have hlb : 1 ≤ s := bisect_lb f.xPos x 1 (n - 2)
      have hub : s < n - 2 := bisect_ub f.xPos x 1 (n - 2) (by omega)
      have hbr := bisect_bracket f.xPos x 1 (n - 2) (by omega) (le_of_lt h1) (le_of_lt h2)
      rw [← hsdef] at hbr
      have hsle : s ≤ i := by
        by_contra hc
        push_neg at hc
        exact absurd hbr.1 (not_le.mpr (pairwise_getD_lt hs hc (by omega)))
      have hile : i ≤ s + 1 := by
        by_contra hc
        push_neg at hc
        exact absurd hbr.2 (not_le.mpr (pairwise_getD_lt hs hc (by omega)))
      have : i = s ∨ i = s + 1 := by omega
      rcases this with h | h
      · rw [hx, h]
        simp
      · rw [hx, h,
          div_self (sub_ne_zero.mpr (ne_of_gt (pairwise_getD_lt hs (by omega) (by omega))))]
        push_cast
        ring

theorem cppTrunc_natCast (k : ℕ) : cppTrunc ((k : ℕ) : ℚ) = (k : ℤ) := by
  rw [cppTrunc]
  simp [Rat.num_natCast, Rat.den_natCast]

theorem evalValue_node (f : Table) (hq : QueryReady f) (i j : ℕ)
    (hi : i < numX f) (hj : j < numY f i) :
    evalValue f (xAt f i) (yAt f i j) = valueAt f i j := by
  obtain ⟨⟨hsx, hsy⟩, hlen, hn, hcl⟩ := hq
  have hn2 : 2 ≤ numX f := hn
  have hmem : ∀ k, k < numX f → f.samples.getD k [] ∈ f.samples := by
    intro k hk
    rw [List.getD_eq_getElem _ _ (by rw [hlen]; exact hk)]
    exact List.getElem_mem _
  have hm2 : 2 ≤ numY f i := hcl _ (hmem i hi)
  have hA : xToI f (xAt f i) = (i : ℚ) := xToI_node f i hsx hn hi
  have hB : yToJ f i (yAt f i j) = (j : ℚ) :=
    yToJ_node f i j (hsy _ (hmem i hi)) (hcl _ (hmem i hi)) hj
  rw [evalValue, hA, cppTrunc_natCast]
  by_cases hcase : (i : ℕ) + 2 ≤ numX f
  · -- the column index clamps to i itself and alpha vanishes
    rw [show (max 0 (min ((numX f : ℤ) - 2) ((i : ℕ) : ℤ))).toNat = i from by omega]
    rw [hB, cppTrunc_natCast]
    by_cases hcase2 : (j : ℕ) + 2 ≤ numY f i
    · rw [show (max 0 (min ((numY f i : ℤ) - 2) ((j : ℕ) : ℤ))).toNat = j from by omega]
      ring
    · have hjtop : j = numY f i - 1 := by omega
      rw [show (max 0 (min ((numY f i : ℤ) - 2) ((j : ℕ) : ℤ))).toNat = numY f i - 2 from by
        omega]
      rw [show numY f i - 2 + 1 = j from by omega]
      rw [show ((numY f i - 2 : ℕ) : ℚ) = (j : ℚ) - 1 from by
        rw [hjtop, Nat.cast_sub (by omega), Nat.cast_sub (by omega)]
        push_cast
        ring]
      ring
  · -- the last column: the index clamps to numX - 2 and alpha becomes 1
    have hitop : i = numX f - 1 := by omega
    rw [show (max 0 (min ((numX f : ℤ) - 2) ((i : ℕ) : ℤ))).toNat = numX f - 2 from by omega]
    rw [show numX f - 2 + 1 = i from by omega]
    rw [hB, cppTrunc_natCast]
    rw [show ((numX f - 2 : ℕ) : ℚ) = (i : ℚ) - 1 from by
      rw [hitop, Nat.cast_sub (by omega), Nat.cast_sub (by omega)]
      push_cast
      ring]
    by_cases hcase2 : (j : ℕ) + 2 ≤ numY f i
    · rw [show (max 0 (min ((numY f i : ℤ) - 2) ((j : ℕ) : ℤ))).toNat = j from by omega]
      ring
    · have hjtop : j = numY f i - 1 := by omega
      rw [show (max 0 (min ((numY f i : ℤ) - 2) ((j : ℕ) : ℤ))).toNat = numY f i - 2 from by
        omega]
      rw [show numY f i - 2 + 1 = j from by omega]
      rw [show ((numY f i - 2 : ℕ) : ℚ) = (j : ℚ) - 1 from by
        rw [hjtop, Nat.cast_sub (by omega), Nat.cast_sub (by omega)]
        push_cast
        ring]
      ring

/-- Claim C8: xToI selects interval 0 when x is at most the second
x-sample, the last interval when x is at least the second-to-last
x-sample, and otherwise bisection narrows to a segment s with
xPos[s] <= x <= xPos[s+1]; in every case the result is the segment index
plus the fractional offset within the segment. -/
theorem xToI_piecewise_spec (f : Table) (hs : f.xPos.Pairwise (· < ·)) (hn : 2 ≤ numX f) (x : ℚ) :
    (x ≤ f.xPos.getD 1 0 →
      xToI f x = (x - f.xPos.getD 0 0) / (f.xPos.getD 1 0 - f.xPos.getD 0 0)) ∧
    (f.xPos.getD 1 0 < x → f.xPos.getD (numX f - 2) 0 ≤ x →
      xToI f x = ((numX f - 2 : ℕ) : ℚ) +
        (x - f.xPos.getD (numX f - 2) 0) /
          (f.xPos.getD (numX f - 1) 0 - f.xPos.getD (numX f - 2) 0)) ∧
    (f.xPos.getD 1 0 < x → x < f.xPos.getD (numX f - 2) 0 →
      ∃ s : ℕ, 1 ≤ s ∧ s + 1 ≤ numX f - 2 ∧
        f.xPos.getD s 0 ≤ x ∧ x ≤ f.xPos.getD (s + 1) 0 ∧
        xToI f x = (s : ℚ) + (x - f.xPos.getD s 0) /
          (f.xPos.getD (s + 1) 0 - f.xPos.getD s 0)) := by
  have hn2 : 2 ≤ f.xPos.length := hn
  refine ⟨?_, ?_, ?_⟩
  · intro h1
    rw [xToI]
    simp only [if_pos h1]
    norm_num
  · intro h1 h2
    simp only [numX] at h2 ⊢
    rw [xToI]
    simp only [if_neg (not_le.mpr h1), if_pos h2]
    rw [show f.xPos.length - 2 + 1 = f.xPos.length - 1 from by omega]
  · intro h1 h2
    simp only [numX] at h2 ⊢
    have hn4 : 1 < f.xPos.length - 2 := by
      by_contra hc
      push_neg at hc
      exact absurd (lt_trans h1 h2) (not_lt.mpr (pairwise_getD_le hs hc (by omega)))
    rw [xToI]
    simp only [if_neg (not_le.mpr h1), if_neg (not_le.mpr h2)]
    refine ⟨bisect f.xPos x 1 (f.xPos.length - 2), bisect_lb f.xPos x 1 (f.xPos.length - 2),
      ?_, ?_, ?_, rfl⟩
    · have := bisect_ub f.xPos x 1 (f.xPos.length - 2) (by omega)
      omega
    · exact (bisect_bracket f.xPos x 1 (f.xPos.length - 2) (by omega)
        (le_of_lt h1) (le_of_lt h2)).1
    · exact (bisect_bracket f.xPos x 1 (f.xPos.length - 2) (by omega)
        (le_of_lt h1) (le_of_lt h2)).2

theorem bisectAux_upper_turn (pos : List ℚ) (x : ℚ) :
    ∀ fuel l u : ℕ, u - l ≤ fuel → l < u →
      x < pos.getD (bisectAux pos x fuel l u + 1) 0 ∨ bisectAux pos x fuel l u + 1 = u := by
  intro fuel
  induction fuel with
  | zero => intro l u hf h; omega
  | succ n ih =>
    intro l u hf h
    rw [bisectAux]
    split
    · rename_i hlt
      split
      · rename_i hx
        rcases ih l ((l + u) / 2) (by omega) (by omega) with h1 | h1
        · exact Or.inl h1
        · exact Or.inl (by rw [h1]; exact hx)
      · exact ih ((l + u) / 2) u (by omega) (by omega)
    · exact Or.inr (by omega)

theorem bisectAux_lower_turn (pos : List ℚ) (x : ℚ) :
    ∀ fuel l u : ℕ,
      pos.getD (bisectAux pos x fuel l u) 0 ≤ x ∨ bisectAux pos x fuel l u = l := by
  intro fuel
  induction fuel with
  | zero => intro l u; exact Or.inr rfl
  | succ n ih =>
    intro l u
    rw [bisectAux]
    split
    · rename_i hlt
      split
      · exact ih l ((l + u) / 2)
      · rename_i hx
        rcases ih ((l + u) / 2) u with h1 | h1
        · exact Or.inl h1
        · exact Or.inl (by rw [h1]; exact le_of_not_lt hx)
    · exact Or.inr rfl

theorem bisect_upper_turn (pos : List ℚ) (x : ℚ) (l u : ℕ) (h : l < u) :
    x < pos.getD (bisect pos x l u + 1) 0 ∨ bisect pos x l u + 1 = u :=
  bisectAux_upper_turn pos x _ l u (le_refl _) h

theorem bisect_lower_turn (pos : List ℚ) (x : ℚ) (l u : ℕ) :
    pos.getD (bisect pos x l u) 0 ≤ x ∨ bisect pos x l u = l :=
  bisectAux_lower_turn pos x _ l u

theorem bisectAux_mono (pos : List ℚ) (x x' : ℚ) (hxx : x ≤ x') :
    ∀ fuel l u : ℕ, bisectAux pos x fuel l u ≤ bisectAux pos x' fuel l u := by
  intro fuel
  induction fuel with
  | zero => intro l u; simp [bisectAux]
  | succ n ih =>
    intro l u
    rw [bisectAux, bisectAux]
    split
    · rename_i hlt
      by_cases h1 : x < pos.getD ((l + u) / 2) 0
      · rw [if_pos h1]
        by_cases h2 : x' < pos.getD ((l + u) / 2) 0
        · rw [if_pos h2]; exact ih l _
        · rw [if_neg h2]
          exact le_trans (le_of_lt (bisectAux_ub pos x n l ((l + u) / 2) (by omega)))
            (bisectAux_lb pos x' n ((l + u) / 2) u)
      · rw [if_neg h1]
        have h2 : ¬ x' < pos.getD ((l + u) / 2) 0 := fun hc => h1 (lt_of_le_of_lt hxx hc)
        rw [if_neg h2]
        exact ih _ u
    · exact le_refl _

theorem bisect_mono (pos : List ℚ) (x x' : ℚ) (hxx : x ≤ x') (l u : ℕ) :
    bisect pos x l u ≤ bisect pos x' l u :=
  bisectAux_mono pos x x' hxx _ l u

theorem le_add_frac (l : ℕ) (a b x : ℚ) (ha : a ≤ x) (hab : a < b) :
    (l : ℚ) ≤ (l : ℚ) + (x - a) / (b - a) :=
  le_add_of_nonneg_right (div_nonneg (sub_nonneg.mpr ha) (le_of_lt (sub_pos.mpr hab)))

theorem add_frac_le (l : ℕ) (a b x : ℚ) (hx : x ≤ b) (hab : a < b) :
    (l : ℚ) + (x - a) / (b - a) ≤ (l : ℚ) + 1 :=
  add_le_add_left ((div_le_one (sub_pos.mpr hab)).mpr (sub_le_sub_right hx a)) _

theorem add_frac_mono (l : ℕ) (a b x x' : ℚ) (hxx : x ≤ x') (hab : a < b) :
    (l : ℚ) + (x - a) / (b - a) ≤ (l : ℚ) + (x' - a) / (b - a) := by
  gcongr
  exact le_of_lt (sub_pos.mpr hab)

theorem yToJ_mono (f : Table) (i : ℕ)
    (hs : ((f.samples.getD i []).map SamplePoint.y).Pairwise (· < ·))
    (hm : 2 ≤ (f.samples.getD i []).length)
    (y y' : ℚ) (hy : y ≤ y') : yToJ f i y ≤ yToJ f i y' := by
  rw [yToJ, yToJ]
  set col := f.samples.getD i [] with hcol
  set ys := col.map SamplePoint.y with hys
  have hlen : ys.length = col.length := List.length_map col SamplePoint.y
  set l1 := bisect ys y 0 (col.length - 1) with hl1
  set l2 := bisect ys y' 0 (col.length - 1) with hl2
  have hmono : l1 ≤ l2 := bisect_mono ys y y' hy 0 (col.length - 1)
  have hub1 : l1 < col.length - 1 := bisect_ub ys y 0 (col.length - 1) (by omega)
  have hub2 : l2 < col.length - 1 := bisect_ub ys y' 0 (col.length - 1) (by omega)
  have hd1 : ys.getD l1 0 < ys.getD (l1 + 1) 0 :=
    pairwise_getD_lt hs (Nat.lt_succ_self l1) (by omega)
  have hd2 : ys.getD l2 0 < ys.getD (l2 + 1) 0 :=
    pairwise_getD_lt hs (Nat.lt_succ_self l2) (by omega)
  rcases Nat.eq_or_lt_of_le hmono with he | hlt
  · rw [← he]
    exact add_frac_mono l1 _ _ y y' hy hd1
  · have hfr1 : y ≤ ys.getD (l1 + 1) 0 := by
      rcases bisect_upper_turn ys y 0 (col.length - 1) (by omega) with h1 | h1
      · exact le_of_lt h1
      · rw [← hl1] at h1
        omega
    have hfr2 : ys.getD l2 0 ≤ y' := by
      rcases bisect_lower_turn ys y' 0 (col.length - 1) with h1 | h1
      · exact h1
      · rw [← hl2] at h1
        omega
    calc (l1 : ℚ) + (y - ys.getD l1 0) / (ys.getD (l1 + 1) 0 - ys.getD l1 0)
        ≤ (l1 : ℚ) + 1 := add_frac_le l1 _ _ y hfr1 hd1
      _ ≤ (l2 : ℚ) := by
          have : (l1 : ℕ) + 1 ≤ l2 := hlt
          exact_mod_cast Nat.cast_le.mpr this
      _ ≤ (l2 : ℚ) + (y' - ys.getD l2 0) / (ys.getD (l2 + 1) 0 - ys.getD l2 0) :=
          le_add_frac l2 _ _ y' hfr2 hd2

theorem xToI_mono (f : Table) (hs : f.xPos.Pairwise (· < ·)) (hn : 2 ≤ f.xPos.length)
    (x x' : ℚ) (hxx : x ≤ x') : xToI f x ≤ xToI f x' := by
  have hp01 : f.xPos.getD 0 0 < f.xPos.getD (0 + 1) 0 :=
    pairwise_getD_lt hs (by omega) (by omega)
  have hpB : f.xPos.getD (f.xPos.length - 2) 0 < f.xPos.getD (f.xPos.length - 2 + 1) 0 :=
    pairwise_getD_lt hs (by omega) (by omega)
  rw [xToI, xToI]
  by_cases c1 : x ≤ f.xPos.getD 1 0
  · by_cases c1' : x' ≤ f.xPos.getD 1 0
    · -- both in the first segment
      simp only [if_pos c1, if_pos c1']
      exact add_frac_mono 0 _ _ x x' hxx hp01
    · by_cases c2' : f.xPos.getD (f.xPos.length - 2) 0 ≤ x'
      · -- x in the first segment, x' in the last segment
        simp only [if_pos c1, if_neg c1', if_pos c2']
        by_cases h3 : 3 ≤ f.xPos.length
        · calc ((0 : ℕ) : ℚ) + (x - f.xPos.getD 0 0) / (f.xPos.getD (0 + 1) 0 - f.xPos.getD 0 0)
              ≤ ((0 : ℕ) : ℚ) + 1 := add_frac_le 0 _ _ x (by simpa using c1) hp01
            _ ≤ ((f.xPos.length - 2 : ℕ) : ℚ) := by
                exact_mod_cast show (0 : ℕ) + 1 ≤ f.xPos.length - 2 from by omega
            _ ≤ _ := le_add_frac _ _ _ x' c2' hpB
        · -- the table has exactly two columns: both formulas live on segment 0
          have h2 : f.xPos.length = 2 := by omega
          rw [show f.xPos.length - 2 = 0 from by omega]
          exact add_frac_mono 0 _ _ x x' hxx hp01
      · -- x in the first segment, x' found by bisection
        simp only [if_pos c1, if_neg c1', if_neg c2']
        push_neg at c1' c2'
        have hn4 : 1 < f.xPos.length - 2 := by
          by_contra hc
          push_neg at hc
          exact absurd (lt_trans c1' c2') (not_lt.mpr (pairwise_getD_le hs hc (by omega)))
        set s2 := bisect f.xPos x' 1 (f.xPos.length - 2) with hs2
        have hlb2 : 1 ≤ s2 := bisect_lb f.xPos x' 1 (f.xPos.length - 2)
        have hub2 : s2 < f.xPos.length - 2 := bisect_ub f.xPos x' 1 (f.xPos.length - 2) (by omega)
        have hbr2 := bisect_bracket f.xPos x' 1 (f.xPos.length - 2) (by omega)
          (le_of_lt c1') (le_of_lt c2')
        rw [← hs2] at hbr2
        have hd2 : f.xPos.getD s2 0 < f.xPos.getD (s2 + 1) 0 :=
          pairwise_getD_lt hs (by omega) (by omega)
        calc ((0 : ℕ) : ℚ) + (x - f.xPos.getD 0 0) / (f.xPos.getD (0 + 1) 0 - f.xPos.getD 0 0)
            ≤ ((0 : ℕ) : ℚ) + 1 := add_frac_le 0 _ _ x (by simpa using c1) hp01
          _ ≤ (s2 : ℚ) := by exact_mod_cast show (0 : ℕ) + 1 ≤ s2 from by omega
          _ ≤ _ := le_add_frac s2 _ _ x' hbr2.1 hd2
  · have c1'f : ¬ x' ≤ f.xPos.getD 1 0 := fun hc => c1 (le_trans hxx hc)
    by_cases c2 : f.xPos.getD (f.xPos.length - 2) 0 ≤ x
    · -- x in the last segment, hence so is x'
      have c2' : f.xPos.getD (f.xPos.length - 2) 0 ≤ x' := le_trans c2 hxx
      simp only [if_neg c1, if_neg c1'f, if_pos c2, if_pos c2']
      exact add_frac_mono _ _ _ x x' hxx hpB
    · by_cases c2' : f.xPos.getD (f.xPos.length - 2) 0 ≤ x'
      · -- x found by bisection, x' in the last segment
        simp only [if_neg c1, if_neg c1'f, if_neg c2, if_pos c2']
        push_neg at c1 c2
        have hn4 : 1 < f.xPos.length - 2 := by
          by_contra hc
          push_neg at hc
          exact absurd (lt_trans c1 c2) (not_lt.mpr (pairwise_getD_le hs hc (by omega)))
        set s1 := bisect f.xPos x 1 (f.xPos.length - 2) with hs1
        have hlb1 : 1 ≤ s1 := bisect_lb f.xPos x 1 (f.xPos.length - 2)
        have hub1 : s1 < f.xPos.length - 2 := bisect_ub f.xPos x 1 (f.xPos.length - 2) (by omega)
        have hbr1 := bisect_bracket f.xPos x 1 (f.xPos.length - 2) (by omega)
          (le_of_lt c1) (le_of_lt c2)
        rw [← hs1] at hbr1
        have hd1 : f.xPos.getD s1 0 < f.xPos.getD (s1 + 1) 0 :=
          pairwise_getD_lt hs (by omega) (by omega)
        calc (s1 : ℚ) + (x - f.xPos.getD s1 0) / (f.xPos.getD (s1 + 1) 0 - f.xPos.getD s1 0)
            ≤ (s1 : ℚ) + 1 := add_frac_le s1 _ _ x hbr1.2 hd1
          _ ≤ ((f.xPos.length - 2 : ℕ) : ℚ) := by
              exact_mod_cast show s1 + 1 ≤ f.xPos.length - 2 from by omega
          _ ≤ _ := le_add_frac _ _ _ x' c2' hpB
      · -- both found by bisection
        simp only [if_neg c1, if_neg c1'f, if_neg c2, if_neg c2']
        push_neg at c1 c2 c1'f c2'
        have hn4 : 1 < f.xPos.length - 2 := by
          by_contra hc
          push_neg at hc
          exact absurd (lt_trans c1 c2) (not_lt.mpr (pairwise_getD_le hs hc (by omega)))
        set s1 := bisect f.xPos x 1 (f.xPos.length - 2) with hs1
        set s2 := bisect f.xPos x' 1 (f.xPos.length - 2) with hs2
        have hmono : s1 ≤ s2 := bisect_mono f.xPos x x' hxx 1 (f.xPos.length - 2)
        have hub1 : s1 < f.xPos.length - 2 := bisect_ub f.xPos x 1 (f.xPos.length - 2) (by omega)
        have hub2 : s2 < f.xPos.length - 2 :=
          bisect_ub f.xPos x' 1 (f.xPos.length - 2) (by omega)
        have hbr1 := bisect_bracket f.xPos x 1 (f.xPos.length - 2) (by omega)
          (le_of_lt c1) (le_of_lt c2)
        have hbr2 := bisect_bracket f.xPos x' 1 (f.xPos.length - 2) (by omega)
          (le_of_lt c1'f) (le_of_lt c2')
        rw [← hs1] at hbr1
        rw [← hs2] at hbr2
        have hd1 : f.xPos.getD s1 0 < f.xPos.getD (s1 + 1) 0 :=
          pairwise_getD_lt hs (by omega) (by omega)
        have hd2 : f.xPos.getD s2 0 < f.xPos.getD (s2 + 1) 0 :=
          pairwise_getD_lt hs (by omega) (by omega)
        rcases Nat.eq_or_lt_of_le hmono with he | hlt
        · rw [← he]
          exact add_frac_mono s1 _ _ x x' hxx hd1
        · calc (s1 : ℚ) + (x - f.xPos.getD s1 0) / (f.xPos.getD (s1 + 1) 0 - f.xPos.getD s1 0)
              ≤ (s1 : ℚ) + 1 := add_frac_le s1 _ _ x hbr1.2 hd1
            _ ≤ (s2 : ℚ) := by exact_mod_cast show s1 + 1 ≤ s2 from hlt
            _ ≤ _ := le_add_frac s2 _ _ x' hbr2.1 hd2

theorem evalAD_refines (f : Table) (x y : Evaluation)
    (hlen : x.derivatives.length = y.derivatives.length) :
    evalAD f x y = evalADRef f x y := by
  obtain ⟨xv, dxs⟩ := x
  obtain ⟨yv, dys⟩ := y
  simp only [Evaluation.derivatives] at hlen
  simp only [evalAD, evalADRef, evalValue, Evaluation.add, Evaluation.mul, Evaluation.smul,
    Evaluation.scalarSub, Evaluation.value, Evaluation.derivatives, Evaluation.mk.injEq]
  constructor
  · trivial
  · induction dxs generalizing dys with
    | nil =>
      simp
    | cons a as ih =>
      cases dys with
      | nil => simp at hlen
      | cons b bs =>
        simp only [List.map_cons, List.zipWith_cons_cons, List.cons.injEq]
        constructor
        · ring
        · exact ih bs (by simpa using hlen)

theorem mem_le_getLastD {l : List ℚ} (h : l.Pairwise (· < ·)) {a : ℚ} (ha : a ∈ l) :
    a ≤ l.getLastD 0 := by
  obtain ⟨idx, hidx, rfl⟩ := List.mem_iff_getElem.mp ha
  rw [getLastD_eq_getD _ _ (List.ne_nil_of_mem ha), ← List.getD_eq_getElem l 0 hidx]
  exact pairwise_getD_le h (by omega) (by omega)

theorem mem_ge_headD {l : List ℚ} (h : l.Pairwise (· < ·)) {a : ℚ} (ha : a ∈ l) :
    l.headD 0 ≤ a := by
  obtain ⟨idx, hidx, rfl⟩ := List.mem_iff_getElem.mp ha
  rw [headD_eq_getD, ← List.getD_eq_getElem l 0 hidx]
  exact pairwise_getD_le h (by omega) hidx

theorem headD_y_map (col : List SamplePoint) :
    (col.map SamplePoint.y).headD 0 = (col.headD default).y := by
  cases col <;> rfl

theorem getLastD_y_map_gen (col : List SamplePoint) (d : SamplePoint) :
    (col.map SamplePoint.y).getLastD d.y = (col.getLastD d).y := by
  induction col generalizing d with
  | nil => rfl
  | cons a l ih =>
    rw [List.map_cons, List.getLastD_cons, List.getLastD_cons]
    exact ih a

theorem getLastD_y_map (col : List SamplePoint) :
    (col.map SamplePoint.y).getLastD 0 = (col.getLastD default).y := by
  rw [show (0 : ℚ) = SamplePoint.y default from rfl]
  exact getLastD_y_map_gen col default

theorem appendXPos_preserves_WFsorted (f : Table) (v : ℚ) (t' : Table) (k : ℕ)
    (hw : WFsorted f) (happ : appendXPos f v = Except.ok (t', k)) : WFsorted t' := by
  rw [appendXPos] at happ
  split_ifs at happ with h1 h2
  · simp only [Except.ok.injEq, Prod.mk.injEq] at happ
    obtain ⟨rfl, -⟩ := happ
    constructor
    · rw [List.pairwise_append]
      refine ⟨hw.1, by simp, ?_⟩
      intro a ha b hb
      rw [List.mem_singleton] at hb
      subst hb
      rcases h1 with h1 | h1
      · rw [h1] at ha
        simp at ha
      · exact lt_of_le_of_lt (mem_le_getLastD hw.1 ha) h1
    · intro col hcol
      rw [resizeSamples, List.mem_append] at hcol
      rcases hcol with hcol | hcol
      · exact hw.2 col (List.take_subset _ _ hcol)
      · rw [List.eq_of_mem_replicate hcol]
        simp
  · simp only [Except.ok.injEq, Prod.mk.injEq] at happ
    obtain ⟨rfl, -⟩ := happ
    constructor
    · rw [List.pairwise_cons]
      exact ⟨fun b hb => lt_of_lt_of_le h2 (mem_ge_headD hw.1 hb), hw.1⟩
    · intro col hcol
      rcases List.mem_cons.mp hcol with h | h
      · rw [h]; simp
      · exact hw.2 col h

theorem appendSamplePoint_preserves_WFsorted (f : Table) (i : ℕ) (yv val : ℚ)
    (t' : Table) (k : ℕ) (hw : WFsorted f)
    (happ : appendSamplePoint f i yv val = Except.ok (t', k)) : WFsorted t' := by
  have hcolsorted : ((f.samples.getD i []).map SamplePoint.y).Pairwise (· < ·) := by
    by_cases hi : i < f.samples.length
    · refine hw.2 _ ?_
      rw [List.getD_eq_getElem _ _ hi]
      exact List.getElem_mem _
    · rw [List.getD_eq_default _ _ (by omega)]
      simp
  rw [appendSamplePoint] at happ
  split_ifs at happ with h1 h2
  · simp only [Except.ok.injEq, Prod.mk.injEq] at happ
    obtain ⟨rfl, -⟩ := happ
    refine ⟨hw.1, ?_⟩
    intro col hcol
    rcases List.mem_or_eq_of_mem_set hcol with h | h
    · exact hw.2 col h
    · subst h
      rw [List.map_append, List.pairwise_append]
      refine ⟨hcolsorted, by simp, ?_⟩
      intro a ha b hb
      simp only [List.map_cons, List.map_nil, List.mem_singleton] at hb
      rw [hb]
      rcases h1 with h1 | h1
      · rw [h1] at ha
        simp at ha
      · calc a ≤ ((f.samples.getD i []).map SamplePoint.y).getLastD 0 :=
              mem_le_getLastD hcolsorted ha
          _ = ((f.samples.getD i []).getLastD default).y := getLastD_y_map _
          _ < yv := h1
  · simp only [Except.ok.injEq, Prod.mk.injEq] at happ
    obtain ⟨rfl, -⟩ := happ
    refine ⟨hw.1, ?_⟩
    intro col hcol
    rcases List.mem_or_eq_of_mem_set hcol with h | h
    · exact hw.2 col h
    · subst h
      rw [List.map_cons, List.pairwise_cons]
      refine ⟨?_, hcolsorted⟩
      intro b hb
      calc yv < ((f.samples.getD i []).headD default).y := h2
        _ = ((f.samples.getD i []).map SamplePoint.y).headD 0 := (headD_y_map _).symm
        _ ≤ b := mem_ge_headD hcolsorted hb

theorem resizeSamples_snoc (s : List (List SamplePoint)) (n : ℕ) (h : s.length = n) :
    resizeSamples s (n + 1) = s ++ [[]] := by
  rw [resizeSamples, List.take_of_length_le (by omega), show n + 1 - s.length = 1 from by omega]
  rfl

theorem buildX_cons_ok (f f2 : Table) (k : ℕ) (a : ℚ) (rest : List ℚ)
    (h : appendXPos f a = Except.ok (f2, k)) : buildX f (a :: rest) = buildX f2 rest := by
  rw [buildX, h]

theorem buildY_cons_ok (f f2 : Table) (i k : ℕ) (p : ℚ × ℚ) (rest : List (ℚ × ℚ))
    (h : appendSamplePoint f i p.1 p.2 = Except.ok (f2, k)) :
    buildY f i (p :: rest) = buildY f2 i rest := by
  rw [buildY, h]

theorem appendXPos_snoc (f : Table) (a : ℚ) (hcond : f.xPos = [] ∨ f.xPos.getLastD 0 < a)
    (hlen : f.samples.length = f.xPos.length) :
    appendXPos f a = Except.ok (⟨f.samples ++ [[]], f.xPos ++ [a]⟩, f.xPos.length) := by
  rw [appendXPos, if_pos hcond]
  have h1 : resizeSamples f.samples (f.xPos ++ [a]).length = f.samples ++ [[]] := by
    rw [List.length_append, List.length_singleton]
    exact resizeSamples_snoc _ _ hlen
  simp [h1, resizeSamples_snoc _ _ hlen]

theorem buildX_asc : ∀ (xs : List ℚ) (f : Table),
    xs.Pairwise (· < ·) →
    (∀ a ∈ xs, f.xPos = [] ∨ f.xPos.getLastD 0 < a) →
    f.samples.length = f.xPos.length →
    buildX f xs = some ⟨f.samples ++ List.replicate xs.length [], f.xPos ++ xs⟩ := by
  intro xs
  induction xs with
  | nil => intro f _ _ _; simp [buildX]
  | cons a rest ih =>
    intro f hp hall hlen
    rw [buildX_cons_ok f _ _ a rest
      (appendXPos_snoc f a (hall a (List.mem_cons_self a rest)) hlen)]
    rw [ih ⟨f.samples ++ [[]], f.xPos ++ [a]⟩ (List.pairwise_cons.mp hp).2 ?_ (by simp [hlen])]
    · simp [List.replicate_succ]
    · intro b hb
      right
      have hlast : (f.xPos ++ [a]).getLastD 0 = a := by
        rw [getLastD_eq_getD _ _ (by simp), List.length_append, List.length_singleton,
          List.getD_eq_getElem _ _ (by simp), List.getElem_append_right (by omega)]
        simp
      rw [hlast]
      exact (List.pairwise_cons.mp hp).1 b hb

theorem buildX_desc : ∀ (ds : List ℚ) (f : Table),
    ds.Pairwise (fun a b => b < a) →
    f.xPos ≠ [] →
    f.xPos.Pairwise (· < ·) →
    (∀ a ∈ ds, a < f.xPos.headD 0) →
    buildX f ds = some ⟨List.replicate ds.length [] ++ f.samples, ds.reverse ++ f.xPos⟩ := by
  intro ds
  induction ds with
  | nil => intro f _ _ _ _; simp [buildX]
  | cons d rest ih =>
    intro f hp hne hs hall
    have hd : d < f.xPos.headD 0 := hall d (List.mem_cons_self d rest)
    have hhb : f.xPos.headD 0 ≤ f.xPos.getLastD 0 := by
      rw [headD_eq_getD, getLastD_eq_getD _ _ hne]
      exact pairwise_getD_le hs (by omega) (by
        have := List.length_pos.mpr hne
        omega)
    have happ : appendXPos f d = Except.ok (⟨[] :: f.samples, d :: f.xPos⟩, 0) := by
      rw [appendXPos, if_neg ?_, if_pos hd]
      push_neg
      exact ⟨hne, le_of_lt (lt_of_lt_of_le hd hhb)⟩
    rw [buildX_cons_ok f _ _ d rest happ]
    rw [ih ⟨[] :: f.samples, d :: f.xPos⟩ (List.pairwise_cons.mp hp).2 (by simp) ?_ ?_]
    · simp [List.replicate_succ']
    · rw [List.pairwise_cons]
      exact ⟨fun b hb => lt_of_lt_of_le hd (mem_ge_headD hs hb), hs⟩
    · intro b hb
      exact (List.pairwise_cons.mp hp).1 b hb

theorem appendSP_snoc (x0 : ℚ) (col : List SamplePoint) (p : ℚ × ℚ)
    (hcond : col = [] ∨ (col.getLastD default).y < p.1) :
    appendSamplePoint ⟨[col], [x0]⟩ 0 p.1 p.2 =
      Except.ok (⟨[col ++ [⟨x0, p.1, p.2⟩]], [x0]⟩, col.length) := by
  rw [appendSamplePoint, iToX]
  simp only [List.getD_cons_zero]
  rw [if_pos hcond]
  simp

theorem appendSP_front (x0 : ℚ) (col : List SamplePoint) (p : ℚ × ℚ)
    (hne : col ≠ []) (hs : (col.map SamplePoint.y).Pairwise (· < ·))
    (hlt : p.1 < (col.headD default).y) :
    appendSamplePoint ⟨[col], [x0]⟩ 0 p.1 p.2 =
      Except.ok (⟨[⟨x0, p.1, p.2⟩ :: col], [x0]⟩, 0) := by
  have hhb : (col.headD default).y ≤ (col.getLastD default).y := by
    rw [← headD_y_map, ← getLastD_y_map, headD_eq_getD,
      getLastD_eq_getD _ _ (by simpa using hne)]
    refine pairwise_getD_le hs (by omega) ?_
    have := List.length_pos.mpr hne
    simp only [List.length_map]
    omega
  rw [appendSamplePoint, iToX]
  simp only [List.getD_cons_zero]
  rw [if_neg ?_, if_pos hlt]
  · simp
  · push_neg
    exact ⟨hne, le_of_lt (lt_of_lt_of_le hlt hhb)⟩

theorem buildY_asc : ∀ (ps : List (ℚ × ℚ)) (x0 : ℚ) (col : List SamplePoint),
    (ps.map Prod.fst).Pairwise (· < ·) →
    (∀ p ∈ ps, col = [] ∨ (col.getLastD default).y < p.1) →
    buildY ⟨[col], [x0]⟩ 0 ps =
      some ⟨[col ++ ps.map (fun p => ⟨x0, p.1, p.2⟩)], [x0]⟩ := by
  intro ps
  induction ps with
  | nil => intro x0 col _ _; simp [buildY]
  | cons p rest ih =>
    intro x0 col hp hall
    rw [buildY_cons_ok _ _ 0 col.length p rest
      (appendSP_snoc x0 col p (hall p (List.mem_cons_self p rest)))]
    rw [ih x0 (col ++ [(⟨x0, p.1, p.2⟩ : SamplePoint)]) ?_ ?_]
    · simp
    · rw [List.map_cons] at hp
      exact (List.pairwise_cons.mp hp).2
    · intro q hq
      right
      have hlast : ((col ++ [(⟨x0, p.1, p.2⟩ : SamplePoint)]).getLastD default).y = p.1 := by
        rw [getLastD_eq_getD _ _ (by simp), List.length_append, List.length_singleton,
          List.getD_eq_getElem _ _ (by simp), List.getElem_append_right (by omega)]
        simp
      rw [hlast]
      rw [List.map_cons] at hp
      exact (List.pairwise_cons.mp hp).1 q.1 (List.mem_map_of_mem Prod.fst hq)

theorem buildY_desc : ∀ (ps : List (ℚ × ℚ)) (x0 : ℚ) (col : List SamplePoint),
    (ps.map Prod.fst).Pairwise (fun a b => b < a) →
    col ≠ [] →
    (col.map SamplePoint.y).Pairwise (· < ·) →
    (∀ p ∈ ps, p.1 < (col.headD default).y) →
    buildY ⟨[col], [x0]⟩ 0 ps =
      some ⟨[(ps.map (fun p => (⟨x0, p.1, p.2⟩ : SamplePoint))).reverse ++ col], [x0]⟩ := by
  intro ps
  induction ps with
  | nil => intro x0 col _ _ _ _; simp [buildY]
  | cons p rest ih =>
    intro x0 col hp hne hs hall
    rw [buildY_cons_ok _ _ 0 0 p rest
      (appendSP_front x0 col p hne hs (hall p (List.mem_cons_self p rest)))]
    rw [ih x0 ((⟨x0, p.1, p.2⟩ : SamplePoint) :: col) ?_ (by simp) ?_ ?_]
    · simp
    · rw [List.map_cons] at hp
      exact (List.pairwise_cons.mp hp).2
    · rw [List.map_cons, List.pairwise_cons]
      refine ⟨?_, hs⟩
      intro b hb
      calc (SamplePoint.y ⟨x0, p.1, p.2⟩) = p.1 := rfl
        _ < (col.headD default).y := hall p (List.mem_cons_self p rest)
        _ = (col.map SamplePoint.y).headD 0 := (headD_y_map _).symm
        _ ≤ b := mem_ge_headD hs hb
    · intro q hq
      have : q.1 < p.1 := by
        rw [List.map_cons] at hp
        exact (List.pairwise_cons.mp hp).1 q.1 (List.mem_map_of_mem Prod.fst hq)
      simpa using this

theorem demoTable_eq :
    demoTable = ⟨[[⟨0, 0, 0⟩, ⟨0, 1, 1⟩], [⟨1, 0, 2⟩, ⟨1, 1, 3⟩]], [0, 1]⟩ := by
  norm_num [demoTable, demoTableOpt, buildX, buildY, appendXPos, appendSamplePoint,
    emptyTable, resizeSamples, iToX]

theorem cexTable_eq :
    cexTable = ⟨[[⟨0, 0, 0⟩, ⟨0, 1, 0⟩], [⟨1, 10, 0⟩, ⟨1, 11, 0⟩]], [0, 1]⟩ := by
  norm_num [cexTable, cexTableOpt, buildX, buildY, appendXPos, appendSamplePoint,
    emptyTable, resizeSamples, iToX]

theorem demoTable_queryReady : QueryReady demoTable := by
  rw [demoTable_eq]
  refine ⟨⟨?_, ?_⟩, rfl, by norm_num, ?_⟩ <;>
    simp [List.pairwise_cons]

theorem cexTable_queryReady : QueryReady cexTable := by
  rw [cexTable_eq]
  refine ⟨⟨?_, ?_⟩, rfl, by norm_num, ?_⟩ <;>
    simp [List.pairwise_cons] <;> norm_num

theorem applies_eq_single_column (f : Table) (x y : ℚ) :
    applies f x y = true ↔
      xMin f ≤ x ∧ x ≤ xMax f ∧
        yMin f (cppTrunc (xToI f x)).toNat ≤ y ∧
        y ≤ yMax f (cppTrunc (xToI f x)).toNat := by
  rw [applies]
  split_ifs with h
  · simp only [Bool.false_eq_true, false_iff]
    rintro ⟨h1, h2, -, -⟩
    rcases h with h | h
    · exact absurd h1 (not_le.mpr h)
    · exact absurd h2 (not_le.mpr h)
  · push_neg at h
    have hcol : ∀ a c : ℚ, a * c + (1 - a) * c = c := by
      intro a c
      ring
    simp only [decide_eq_true_eq]
    rw [hcol, hcol]
    exact ⟨fun hy => ⟨h.1, h.2, hy.1, hy.2⟩, fun hy => ⟨hy.2.2.1, hy.2.2.2⟩⟩

/-- Claim C3, amended: applies returns false whenever x is below xMin or
above xMax; otherwise, with i the integer part of xToI(x), it returns
true exactly when y lies between yMin(i) and yMax(i) of that single
column: both column reads of the source use int(i), so the bounds of
column i + 1 never enter and no cross-column blending takes place. -/
theorem applies_single_column_bounds (f : Table) (x y : ℚ) :
    applies f x y = true ↔
      xMin f ≤ x ∧ x ≤ xMax f ∧
        yMin f (cppTrunc (xToI f x)).toNat ≤ y ∧
        y ≤ yMax f (cppTrunc (xToI f x)).toNat :=
  applies_eq_single_column f x y

/-- Claim C3, counterexample: on a validly built query-ready table whose
columns have disjoint y-ranges, the point (1/2, 11/2) satisfies the
claimed blended-bounds condition, with xToI = 1/2 so alpha = 1/2 and
(1 - alpha) yMin(0) + alpha yMin(1) = 5 and the blended maxima 6
bracketing 11/2, yet applies returns false: the source reads both blend
operands from the single column int(xToI(x)), never from column
int(xToI(x)) + 1. -/
theorem applies_blend_counterexample :
    QueryReady cexTable ∧
    xToI cexTable (1/2) = 1/2 ∧
    (1 - (1/2 : ℚ)) * yMin cexTable 0 + (1/2 : ℚ) * yMin cexTable 1 ≤ 11/2 ∧
    (11/2 : ℚ) ≤ (1 - (1/2 : ℚ)) * yMax cexTable 0 + (1/2 : ℚ) * yMax cexTable 1 ∧
    applies cexTable (1/2) (11/2) = false := by
  have hx : xToI cexTable (1/2) = 1/2 := by
    rw [cexTable_eq]
    norm_num [xToI, bisect, bisectAux]
  have htd : Int.tdiv 1 2 = 0 := by decide
  have htr : (cppTrunc (xToI cexTable (1/2))).toNat = 0 := by
    rw [hx]
    norm_num [cppTrunc, htd]
  have hy0 : yMin cexTable 0 = 0 := by rw [cexTable_eq]; rfl
  have hy1 : yMin cexTable 1 = 10 := by rw [cexTable_eq]; rfl
  have hm0 : yMax cexTable 0 = 1 := by rw [cexTable_eq]; rfl
  have hm1 : yMax cexTable 1 = 11 := by rw [cexTable_eq]; rfl
  refine ⟨cexTable_queryReady, hx, ?_, ?_, ?_⟩
  · rw [hy0, hy1]
    norm_num
  · rw [hm0, hm1]
    norm_num
  · cases happ : applies cexTable (1/2) (11/2) with
    | false => rfl
    | true =>
      exfalso
      have h := ((applies_eq_single_column cexTable (1/2) (11/2)).mp happ).2.2.2
      rw [htr, hm0] at h
      norm_num at h

/-- Claim C5: in checked (debug) evaluation mode both eval overloads
raise NumericalIssue exactly when extrapolate is false and applies fails
at the queried point, and with extrapolate = true they always succeed
with the clamped interpolation result. -/
theorem numerical_issue_iff (f : Table) (x y : ℚ) (e : Bool) (X Y : Evaluation) :
    (eval f x y e = Except.error TableError.numericalIssue ↔
      e = false ∧ applies f x y = false) ∧
    eval f x y true = Except.ok (evalValue f x y) ∧
    (evalADChecked f X Y e = Except.error TableError.numericalIssue ↔
      e = false ∧ applies f X.value Y.value = false) ∧
    evalADChecked f X Y true = Except.ok (evalAD f X Y) := by
  refine ⟨?_, ?_, ?_, ?_⟩
  · rw [eval]
    cases e <;> cases happ : applies f x y <;> simp [happ]
  · rw [eval]
    simp
  · rw [evalADChecked]
    cases e <;> cases happ : applies f X.value Y.value <;> simp [happ]
  · rw [evalADChecked]
    simp

/-- Claim C10: called without an explicit extrapolate argument, the
scalar eval defaults to extrapolate = true, so it always succeeds and can
never raise NumericalIssue, while the derivative-propagating eval
defaults to extrapolate = false, so in checked mode it raises
NumericalIssue exactly when applies fails at the value components. -/
theorem eval_default_modes (f : Table) (x y : ℚ) (X Y : Evaluation) :
    evalDefault f x y = Except.ok (evalValue f x y) ∧
    (evalADDefault f X Y = Except.error TableError.numericalIssue ↔
      applies f X.value Y.value = false) := by
  constructor
  · rw [evalDefault, eval]
    simp
  · rw [evalADDefault, evalADChecked]
    cases happ : applies f X.value Y.value <;> simp [happ]

/-- Claim C6: appendXPos succeeds exactly when the x sequence is empty
or the new position strictly extends the back (appending an empty column
and returning the new numX - 1) or strictly extends the front (inserting
an empty column at index 0); otherwise it raises ConstructionError, and
appendSamplePoint obeys the symmetric rule on the named column's y
sequence.  In this pure embedding a failing append returns only the
error value, so the prior table is untouched by construction. -/
theorem append_characterization :
    ∀ (f : Table) (v : ℚ) (i : ℕ) (yv val : ℚ),
      (appendXPos f v = Except.error TableError.constructionError ↔
        f.xPos ≠ [] ∧ f.xPos.headD 0 ≤ v ∧ v ≤ f.xPos.getLastD 0) ∧
      (f.samples.length = f.xPos.length → (f.xPos = [] ∨ f.xPos.getLastD 0 < v) →
        appendXPos f v = Except.ok (⟨f.samples ++ [[]], f.xPos ++ [v]⟩, f.xPos.length)) ∧
      (f.xPos ≠ [] → ¬ f.xPos.getLastD 0 < v → v < f.xPos.headD 0 →
        appendXPos f v = Except.ok (⟨[] :: f.samples, v :: f.xPos⟩, 0)) ∧
      (appendSamplePoint f i yv val = Except.error TableError.constructionError ↔
        f.samples.getD i [] ≠ [] ∧ ((f.samples.getD i []).headD default).y ≤ yv ∧
          yv ≤ ((f.samples.getD i []).getLastD default).y) ∧
      ((f.samples.getD i [] = [] ∨ ((f.samples.getD i []).getLastD default).y < yv) →
        appendSamplePoint f i yv val =
          Except.ok (⟨f.samples.set i (f.samples.getD i [] ++ [⟨iToX f i, yv, val⟩]), f.xPos⟩,
            (f.samples.getD i []).length)) ∧
      (f.samples.getD i [] ≠ [] → ¬ ((f.samples.getD i []).getLastD default).y < yv →
        yv < ((f.samples.getD i []).headD default).y →
        appendSamplePoint f i yv val =
          Except.ok (⟨f.samples.set i (⟨iToX f i, yv, val⟩ :: f.samples.getD i []), f.xPos⟩,
            0)) := by
  intro f v i yv val
  refine ⟨?_, ?_, ?_, ?_, ?_, ?_⟩
  · rw [appendXPos]
    split_ifs with h1 h2
    · constructor
      · intro h
        exact absurd h (by simp)
      · rintro ⟨hne, hfv, hvb⟩
        rcases h1 with he | hb
        · exact absurd he hne
        · exact absurd hb (not_lt.mpr hvb)
    · constructor
      · intro h
        exact absurd h (by simp)
      · rintro ⟨hne, hfv, hvb⟩
        exact absurd h2 (not_lt.mpr hfv)
    · push_neg at h1
      exact ⟨fun _ => ⟨h1.1, not_lt.mp h2, h1.2⟩, fun _ => rfl⟩
  · intro hlen h1
    exact appendXPos_snoc f v h1 hlen
  · intro hne hnb hfr
    rw [appendXPos, if_neg (by push_neg; exact ⟨hne, not_lt.mp hnb⟩), if_pos hfr]
  · rw [appendSamplePoint]
    split_ifs with h1 h2
    · constructor
      · intro h
        exact absurd h (by simp)
      · rintro ⟨hne, hfv, hvb⟩
        rcases h1 with he | hb
        · exact absurd he hne
        · exact absurd hb (not_lt.mpr hvb)
    · constructor
      · intro h
        exact absurd h (by simp)
      · rintro ⟨hne, hfv, hvb⟩
        exact absurd h2 (not_lt.mpr hfv)
    · push_neg at h1
      exact ⟨fun _ => ⟨h1.1, not_lt.mp h2, h1.2⟩, fun _ => rfl⟩
  · intro h1
    rw [appendSamplePoint, if_pos h1]
    simp [iToX]
  · intro hne hnb hfr
    rw [appendSamplePoint, if_neg (by push_neg; exact ⟨hne, not_lt.mp hnb⟩), if_pos hfr]

theorem buildX_desc0 (ds : List ℚ) (hp : ds.Pairwise (fun a b => b < a)) :
    buildX emptyTable ds = some ⟨List.replicate ds.length [], ds.reverse⟩ := by
  cases ds with
  | nil => simp [buildX, emptyTable]
  | cons d rest =>
    have happ : appendXPos emptyTable d = Except.ok (⟨[[]], [d]⟩, 0) := by
      rw [appendXPos,
        if_pos (show emptyTable.xPos = [] ∨ emptyTable.xPos.getLastD 0 < d from Or.inl rfl)]
      rfl
    rw [buildX_cons_ok _ _ 0 d rest happ]
    rw [buildX_desc rest ⟨[[]], [d]⟩ (List.pairwise_cons.mp hp).2 (by simp) (by simp) ?_]
    · simp [List.replicate_succ']
    · intro b hb
      exact (List.pairwise_cons.mp hp).1 b hb

theorem buildY_desc0 (ps : List (ℚ × ℚ)) (x0 : ℚ)
    (hp : (ps.map Prod.fst).Pairwise (fun a b => b < a)) :
    buildY ⟨[[]], [x0]⟩ 0 ps =
      some ⟨[(ps.map (fun p => (⟨x0, p.1, p.2⟩ : SamplePoint))).reverse], [x0]⟩ := by
  cases ps with
  | nil => simp [buildY]
  | cons p rest =>
    rw [buildY_cons_ok _ _ 0 0 p rest (appendSP_snoc x0 [] p (Or.inl rfl))]
    rw [buildY_desc rest x0 ([] ++ [(⟨x0, p.1, p.2⟩ : SamplePoint)]) ?_ (by simp) (by simp) ?_]
    · simp
    · rw [List.map_cons] at hp
      exact (List.pairwise_cons.mp hp).2
    · intro q hq
      rw [List.map_cons] at hp
      have : q.1 < p.1 := (List.pairwise_cons.mp hp).1 q.1 (List.mem_map_of_mem Prod.fst hq)
      simpa using this

/-- Claim C7: each successful appendXPos and appendSamplePoint preserves
strict monotonicity of the stored x positions and of every column's y
sequence, and feeding a strictly increasing list of positions, or its
strictly decreasing reversal, both succeed and produce the same final
ascending-by-coordinate table. -/
theorem construction_invariants :
    (∀ (f : Table) (v : ℚ) (t' : Table) (k : ℕ), WFsorted f →
      appendXPos f v = Except.ok (t', k) → WFsorted t') ∧
    (∀ (f : Table) (i : ℕ) (yv val : ℚ) (t' : Table) (k : ℕ), WFsorted f →
      appendSamplePoint f i yv val = Except.ok (t', k) → WFsorted t') ∧
    (∀ xs : List ℚ, xs.Pairwise (· < ·) →
      buildX emptyTable xs = some ⟨List.replicate xs.length [], xs⟩ ∧
      buildX emptyTable xs.reverse = some ⟨List.replicate xs.length [], xs⟩) ∧
    (∀ (ps : List (ℚ × ℚ)) (x0 : ℚ), (ps.map Prod.fst).Pairwise (· < ·) →
      buildY ⟨[[]], [x0]⟩ 0 ps =
        some ⟨[ps.map (fun p => (⟨x0, p.1, p.2⟩ : SamplePoint))], [x0]⟩ ∧
      buildY ⟨[[]], [x0]⟩ 0 ps.reverse =
        some ⟨[ps.map (fun p => (⟨x0, p.1, p.2⟩ : SamplePoint))], [x0]⟩) := by
  refine ⟨appendXPos_preserves_WFsorted, appendSamplePoint_preserves_WFsorted, ?_, ?_⟩
  · intro xs hp
    constructor
    · have := buildX_asc xs emptyTable hp (fun a _ => Or.inl rfl) rfl
      simpa [emptyTable] using this
    · have := buildX_desc0 xs.reverse (List.pairwise_reverse.mpr hp)
      simpa using this
  · intro ps x0 hp
    constructor
    · have := buildY_asc ps x0 [] hp (fun p _ => Or.inl rfl)
      simpa using this
    · have := buildY_desc0 ps.reverse x0 (by
        rw [List.map_reverse]
        exact List.pairwise_reverse.mpr hp)
      simpa [List.map_reverse] using this

/-- Claim C1: for every query-ready table and every stored sample at
column i, row j, the scalar eval applied to that sample's coordinates
(with the checked mode's defaulted extrapolate = true flag) returns
exactly the stored value, exactly under the exact rational arithmetic of
the embedding. -/
theorem eval_exact_at_nodes (f : Table) (hq : QueryReady f) (i j : ℕ)
    (hi : i < numX f) (hj : j < numY f i) :
    eval f (xAt f i) (yAt f i j) true = Except.ok (valueAt f i j) := by
  rw [eval, evalValue_node f hq i j hi hj]
  simp

/-- Claim C9: on a query-ready table, xToI is a non-decreasing function
of its coordinate argument, and yToJ at every valid column index is a
non-decreasing function of its coordinate argument. -/
theorem xToI_yToJ_monotone (f : Table) (hq : QueryReady f) :
    (∀ x x' : ℚ, x ≤ x' → xToI f x ≤ xToI f x') ∧
    (∀ i : ℕ, i < numX f → ∀ y y' : ℚ, y ≤ y' → yToJ f i y ≤ yToJ f i y') := by
  obtain ⟨⟨hsx, hsy⟩, hlen, hn, hcl⟩ := hq
  constructor
  · intro x x' hxx
    exact xToI_mono f hsx hn x x' hxx
  · intro i hi y y' hy
    have hmem : f.samples.getD i [] ∈ f.samples := by
      rw [List.getD_eq_getElem _ _ (by rw [hlen]; exact hi)]
      exact List.getElem_mem _
    exact yToJ_mono f i (hsy _ hmem) (hcl _ hmem) y y' hy

/-- Claim C4: on the table built by appendXPos(0), appendXPos(1), then
column 0 samples (0,0), (1,1) and column 1 samples (0,2), (1,3), the
defaulted scalar eval at (1/2, 1/2) returns 3/2, the average of the four
corner values. -/
theorem eval_concrete_center :
    demoTableOpt = some demoTable ∧
    evalDefault demoTable (1/2) (1/2) = Except.ok (3/2) := by
  constructor
  · norm_num [demoTable, demoTableOpt, buildX, buildY, appendXPos, appendSamplePoint,
      emptyTable, resizeSamples, iToX]
  · norm_num [evalDefault, eval, evalValue, applies, xToI, yToJ, bisect, bisectAux, cppTrunc,
      demoTable, demoTableOpt, buildX, buildY, appendXPos, appendSamplePoint, emptyTable,
      resizeSamples, iToX, xMin, xMax, xAt, yAt, valueAt, numX, numY, yMin, yMax]

/-- Claim C2: for every query-ready table and derivative-carrying inputs
of equal derivative-vector length, the derivative-propagating eval
coincides with the chain-rule reference semantics evalADRef: its value
component is the scalar eval at the value components, and each derivative
is that of the bilinear blend with dalpha = dx / (x[i+1] - x[i]),
dbeta1 = dy / (y[i,j1+1] - y[i,j1]), dbeta2 = dy / (y[i+1,j2+1] - y[i+1,j2])
and the four corner values held constant; moreover the checked overload
raises NumericalIssue under exactly the same condition as the scalar eval
with the same extrapolate flag. -/
theorem evalAD_chain_rule (f : Table) (hq : QueryReady f) (x y : Evaluation)
    (hlen : x.derivatives.length = y.derivatives.length) (e : Bool) :
    evalAD f x y = evalADRef f x y ∧
    (evalADChecked f x y e = Except.error TableError.numericalIssue ↔
      eval f x.value y.value e = Except.error TableError.numericalIssue) := by
  refine ⟨evalAD_refines f x y hlen, ?_⟩
  rw [evalADChecked, eval]
  cases e <;> cases happ : applies f x.value y.value <;> simp [happ]

-- witnesses
theorem eval_exact_at_nodes_witness :
    QueryReady demoTable ∧ 0 < numX demoTable ∧ 0 < numY demoTable 0 ∧
    eval demoTable (xAt demoTable 0) (yAt demoTable 0 0) true =
      Except.ok (valueAt demoTable 0 0) := by
  have h1 : 0 < numX demoTable := by rw [demoTable_eq]; norm_num [numX]
  have h2 : 0 < numY demoTable 0 := by rw [demoTable_eq]; norm_num [numY]
  exact ⟨demoTable_queryReady, h1, h2,
    eval_exact_at_nodes demoTable demoTable_queryReady 0 0 h1 h2⟩

theorem evalAD_chain_rule_witness :
    QueryReady demoTable ∧
    (Evaluation.mk (1/2) [1, 0]).derivatives.length =
      (Evaluation.mk (1/2) [0, 1]).derivatives.length ∧
    evalAD demoTable ⟨1/2, [1, 0]⟩ ⟨1/2, [0, 1]⟩ =
      evalADRef demoTable ⟨1/2, [1, 0]⟩ ⟨1/2, [0, 1]⟩ :=
  ⟨demoTable_queryReady, rfl,
    (evalAD_chain_rule demoTable demoTable_queryReady ⟨1/2, [1, 0]⟩ ⟨1/2, [0, 1]⟩ rfl
      false).1⟩

theorem append_characterization_witness :
    emptyTable.samples.length = emptyTable.xPos.length ∧
    (emptyTable.xPos = [] ∨ emptyTable.xPos.getLastD 0 < 5) ∧
    appendXPos emptyTable 5 =
      Except.ok (⟨emptyTable.samples ++ [[]], emptyTable.xPos ++ [5]⟩,
        emptyTable.xPos.length) :=
  ⟨rfl, Or.inl rfl,
    (append_characterization emptyTable 5 0 0 0).2.1 rfl (Or.inl rfl)⟩

theorem construction_invariants_witness :
    List.Pairwise (· < ·) [(0 : ℚ), 1] ∧
    (buildX emptyTable [(0 : ℚ), 1] = some ⟨List.replicate 2 [], [0, 1]⟩ ∧
      buildX emptyTable ([(0 : ℚ), 1]).reverse = some ⟨List.replicate 2 [], [0, 1]⟩) := by
  have hp : List.Pairwise (· < ·) [(0 : ℚ), 1] := by
    simp [List.pairwise_cons]
  exact ⟨hp, construction_invariants.2.2.1 [(0 : ℚ), 1] hp⟩

theorem xToI_piecewise_spec_witness :
    2 ≤ numX demoTable ∧ List.Pairwise (· < ·) demoTable.xPos ∧
    xToI demoTable (1/2) =
      ((1 : ℚ)/2 - demoTable.xPos.getD 0 0) /
        (demoTable.xPos.getD 1 0 - demoTable.xPos.getD 0 0) := by
  have h1 : 2 ≤ numX demoTable := by rw [demoTable_eq]; norm_num [numX]
  have h2 : List.Pairwise (· < ·) demoTable.xPos := demoTable_queryReady.1.1
  have h3 : (1 : ℚ)/2 ≤ demoTable.xPos.getD 1 0 := by rw [demoTable_eq]; norm_num
  exact ⟨h1, h2, (xToI_piecewise_spec demoTable h2 h1 (1/2)).1 h3⟩

theorem xToI_yToJ_monotone_witness :
    QueryReady demoTable ∧ xToI demoTable 0 ≤ xToI demoTable 1 :=
  ⟨demoTable_queryReady,
    (xToI_yToJ_monotone demoTable demoTable_queryReady).1 0 1 (by norm_num)⟩

end Opm
